import Mathlib

/-
Verification of the dagchain consensus core against its specification.
The Rust sources under consensus/, p2p/ are shallowly embedded: Blake2b
hashes are abstracted to Nat (only equality and map-key use matter),
Rust HashMap/HashSet become association lists with first-occurrence
lookup, u64/u128 arithmetic is Nat with explicit reduction modulo 2^64
and 2^128 where the source wraps, f64 consensus parameters are modelled
as exact rationals, and fallible operations (Option::unwrap panics)
return Option with none for the panic.
-/

namespace DagChain

/-- u64 modulus for wrapping arithmetic. -/
def U64 : Nat := 2 ^ 64

/-- u128 modulus for wrapping arithmetic. -/
def U128 : Nat := 2 ^ 128

/-- Association-list model of Rust HashMap lookup: the first entry with the
given key, if any. -/
def mapLookup {α : Type} : List (Nat × α) → Nat → Option α
  | [], _ => none
  | (k, v) :: rest, key => if k = key then some v else mapLookup rest key

/-- Association-list model of Rust HashMap insert: replace the value of an
existing key in place, otherwise append a fresh entry. -/
def mapInsert {α : Type} : List (Nat × α) → Nat → α → List (Nat × α)
  | [], key, val => [(key, val)]
  | (k, v) :: rest, key, val =>
    if k = key then (key, val) :: rest else (k, v) :: mapInsert rest key val

/-- Association-list model of Rust HashMap remove (first matching key). -/
def mapRemove {α : Type} : List (Nat × α) → Nat → List (Nat × α)
  | [], _ => []
  | (k, v) :: rest, key => if k = key then rest else (k, v) :: mapRemove rest key

/-- Key-uniqueness invariant every Rust HashMap satisfies. -/
abbrev keysNodup {α : Type} (m : List (Nat × α)) : Prop := (m.map Prod.fst).Nodup

/-- Hvc, the hierarchical vector clock of consensus/src/clock.rs. The u64
counters are Nat; hierarchical_order inlines the LogicalClock(u64) newtype. -/
structure Hvc where
  vector : List (Nat × Nat)
  hierarchical_order : Nat
deriving Repr, DecidableEq

/-- Componentwise read of an HVC vector: unwrap_or(&0) on a map lookup. -/
def lookupV (v : List (Nat × Nat)) (k : Nat) : Nat := (mapLookup v k).getD 0

/-- First loop of Hvc::happened_before: scan the entries (k, v) of self
against the other clock read through f; some true at the first strictly
smaller component, some false at the first strictly larger one, none when
every scanned component is equal. -/
def scanSelf : List (Nat × Nat) → (Nat → Nat) → Option Bool
  | [], _ => none
  | (k, v) :: rest, f =>
    if v < f k then some true
    else if f k < v then some false
    else scanSelf rest f

/-- Second loop of Hvc::happened_before: scan the entries (k, v) of the
other clock against self read through f; some true when self is strictly
below the scanned component, some false when strictly above. -/
def scanOther : List (Nat × Nat) → (Nat → Nat) → Option Bool
  | [], _ => none
  | (k, v) :: rest, f =>
    if f k < v then some true
    else if v < f k then some false
    else scanOther rest f

/-- Hvc::happened_before translated from consensus/src/clock.rs: the first
loop over self's entries decides if it meets an unequal component, else the
second loop over other's entries decides, else false. -/
def Hvc.happened_before (a b : Hvc) : Bool :=
  match scanSelf a.vector (lookupV b.vector) with
  | some r => r
  | none =>
    match scanOther b.vector (lookupV a.vector) with
    | some r => r
    | none => false

/-- Hvc::are_concurrent. -/
def Hvc.are_concurrent (a b : Hvc) : Bool :=
  !(a.happened_before b || b.happened_before a)

/-- Merge step for one entry of the other clock, from Hvc::merge:
Entry::Occupied stores self_clock + other_clock (wrapping u64 addition),
Entry::Vacant inserts other_clock. -/
def upsertAdd : List (Nat × Nat) → Nat → Nat → List (Nat × Nat)
  | [], key, c => [(key, c)]
  | (k, v) :: rest, key, c =>
    if k = key then (k, (v + c) % U64) :: rest
    else (k, v) :: upsertAdd rest key c

/-- Hvc::merge translated from consensus/src/clock.rs: fold the other
clock's entries into a clone of self's vector, adding the counters of
shared keys, and reset hierarchical_order to a fresh LogicalClock. -/
def Hvc.merge (a b : Hvc) : Hvc :=
  { vector := b.vector.foldl (fun acc e => upsertAdd acc e.1 e.2) a.vector
    hierarchical_order := 0 }

/-- Modelled from the spec's words, for comparison with the code model:
componentwise happened-before with zero-filled missing keys; every
component of a at most the matching component of b and at least one
strictly below. -/
def specHappenedBefore (a b : Hvc) : Prop :=
  (∀ k, lookupV a.vector k ≤ lookupV b.vector k) ∧
  (∃ k, lookupV a.vector k < lookupV b.vector k)

/-- ConsensusConfig of consensus/src/config.rs; the f64 fields alpha and
max_batch_interval are modelled as exact rationals. -/
structure ConsensusConfig where
  alpha : ℚ
  beta : Nat
  beta2 : Nat
  k : Nat
  quantum : Bool
  max_batch_size : Nat
  max_batch_interval : ℚ
deriving DecidableEq

/-- ConsensusConfig::new. -/
def ConsensusConfig.new (alpha : ℚ) (beta beta2 k : Nat) : ConsensusConfig :=
  ⟨alpha, beta, beta2, k, false, 40, 2⟩

/-- ConsensusConfig::threshold: param as f64 strictly greater than
alpha * k as f64. At the spec's instance alpha = 0.6, k = 10 the binary64
product is exactly 6, so the rational model agrees with the source there. -/
def ConsensusConfig.threshold (c : ConsensusConfig) (param : Nat) : Bool :=
  decide ((param : ℚ) > c.alpha * (c.k : ℚ))

/-- Transaction status (consensus/src/transaction.rs). -/
inductive TransactionStatus
  | None
  | Pending
  | Accepted
  | Rejected
deriving Repr, DecidableEq

/-- Transaction type (consensus/src/transaction.rs). -/
inductive TransactionType
  | CreateAccount
  | Transfer
deriving Repr, DecidableEq

/-- Transaction of consensus/src/transaction.rs. Hashes and payload bytes
are Nat; signatures are an association list keyed by the pubkey hash, with
the opaque signature bytes a Nat. -/
structure Transaction where
  id : Option Nat
  parent : Nat
  origin : Nat
  destination : Nat
  amount : Nat
  status : TransactionStatus
  tx_type : TransactionType
  payload : List Nat
  hvc : Hvc
  timestamp : Nat
  signatures : List (Nat × Nat)
  agg_signature : Option Nat
  children : List Nat
deriving Repr, DecidableEq

/-- Transaction::get_tx_id unwraps the Option id; none models the panic on
a transaction whose id was never calculated or set. -/
def Transaction.get_tx_id (t : Transaction) : Option Nat := t.id

/-- Account of consensus/src/account.rs (created is the duration since the
epoch, modelled as Nat). -/
structure Account where
  id : Nat
  balance : Nat
  hvc : Hvc
  last_tx_id : Nat
  created : Nat
deriving Repr, DecidableEq

/-- Account::increase_balance: u128 addition, wrapping model. -/
def Account.increase_balance (a : Account) (b : Nat) : Account :=
  { a with balance := (a.balance + b) % U128 }

/-- Account::decrease_balance: u128 subtraction, wrapping model (for a
balance below 2^128 this is the two-complement wrap of balance - b). -/
def Account.decrease_balance (a : Account) (b : Nat) : Account :=
  { a with balance := (a.balance + (U128 - b % U128)) % U128 }

/-- Account::update_last_tx. -/
def Account.update_last_tx (a : Account) (txId : Nat) : Account :=
  { a with last_tx_id := txId }

/-- Account::update_hvc: LogicalClock::increment on the hierarchical order,
wrapping u64 model. -/
def Account.update_hvc (a : Account) : Account :=
  { a with hvc := { a.hvc with hierarchical_order := (a.hvc.hierarchical_order + 1) % U64 } }

/-- Transaction::apply translated from consensus/src/transaction.rs: unwrap
the id (none models the panic), then on each account set last_tx, bump the
hierarchical order and move the amount. -/
def Transaction.apply (t : Transaction) (origin destination : Account) :
    Option (Account × Account) :=
  match t.id with
  | none => none
  | some i =>
    some (((origin.update_last_tx i).update_hvc).decrease_balance t.amount,
          ((destination.update_last_tx i).update_hvc).increase_balance t.amount)

/-- AccountStateChoice of consensus/src/account.rs. -/
structure AccountStateChoice where
  account_state_id : Nat
  tx : Transaction
deriving Repr, DecidableEq

/-- The consensus outcome enum of consensus/src/lib.rs. -/
inductive ConsensusStatus
  | InProgress
  | Accept (h : Nat)
  | Reject
deriving Repr, DecidableEq

/-- Sequential content of the engine state shared by DagConsensus and
QuantumConsensus: the per-account conflict sets (HashMap of HashSet,
modelled as an association list of membership lists) and the accepted
choice map; the Arc/RwLock wrappers carry no sequential content. -/
structure EngineState where
  conflict_set : List (Nat × List Nat)
  choice : List (Nat × Nat)
deriving Repr, DecidableEq

/-- Conflict-set insert shared by DagConsensus::query and
QuantumConsensus::query: add the tx id to the set of the account state,
creating a singleton set when the state is absent. -/
def conflictInsert (cs : List (Nat × List Nat)) (sid txId : Nat) :
    List (Nat × List Nat) :=
  match mapLookup cs sid with
  | some s => mapInsert cs sid (if txId ∈ s then s else s ++ [txId])
  | none => mapInsert cs sid [txId]

/-- DagConsensus::query (QuantumConsensus::query has the same body): unwrap
the tx id (none models the panic) and insert it into the conflict set. -/
def dagQuery (st : EngineState) (state : AccountStateChoice) : Option EngineState :=
  match state.tx.get_tx_id with
  | none => none
  | some t =>
    some { st with conflict_set := conflictInsert st.conflict_set state.account_state_id t }

/-- DagConsensus::on_query (QuantumConsensus::on_query is identical): the
recorded choice, or else the queried tx id, paired with conflict-set
membership; none models the get_tx_id panic, which fires exactly on the
branches whose source unwraps the id. -/
def dagOnQuery (st : EngineState) (state : AccountStateChoice) : Option (Nat × Bool) :=
  match mapLookup st.conflict_set state.account_state_id with
  | some s =>
    match state.tx.get_tx_id with
    | none => none
    | some t =>
      match mapLookup st.choice state.account_state_id with
      | some c => some (c, decide (t ∈ s))
      | none => some (t, decide (t ∈ s))
  | none =>
    match mapLookup st.choice state.account_state_id with
    | some c => some (c, false)
    | none =>
      match state.tx.get_tx_id with
      | none => none
      | some t => some (t, false)

/-- TreeNode of consensus/src/tree.rs. -/
structure TreeNode where
  node : Nat
  confidence : Nat
  preferred : Nat
  last : Nat
  count : Nat
deriving Repr, DecidableEq

/-- HashTreeNode: hash to (parent hash, TreeNode). -/
abbrev HashTreeNode := List (Nat × (Nat × TreeNode))

/-- One iteration of the parent-chain walk of DagConsensus::fire_consensus
and complete_dag_consensus (dag_consensus.rs): read the entry at
parent_hash, advance parent_hash to the stored parent, update the local
node copy only when the tree has an entry at node.preferred (preferred
switch on strictly larger confidence, then the last/count update), write
the copy back under the advanced parent hash, then test the two acceptance
rules. none when the tree has no entry at parent_hash (the while-let loop
ends); otherwise the advanced hash, the updated tree and the acceptance
fired, if any. -/
def walkBody (cfg : ConsensusConfig) (txId : Nat) (tree : HashTreeNode)
    (parentHash : Nat) : Option (Nat × HashTreeNode × Option ConsensusStatus) :=
  match mapLookup tree parentHash with
  | none => none
  | some (pp, n0) =>
    let n :=
      match mapLookup tree n0.preferred with
      | none => n0
      | some (_, pn) =>
        let n1 := if pn.confidence < n0.confidence then { n0 with preferred := n0.node } else n0
        if n1.node ≠ n1.last then { n1 with last := n1.node, count := 0 }
        else { n1 with count := (n1.count + 1) % U64 }
    let tree1 := mapInsert tree pp (pp, n)
    if cfg.beta < n.confidence then some (pp, tree1, some (ConsensusStatus.Accept n.node))
    else if cfg.beta2 < n.count then some (pp, tree1, some (ConsensusStatus.Accept txId))
    else some (pp, tree1, none)

/-- Outcome of the bounded parent-chain walk. -/
inductive WalkOutcome
  | fuelOut
  | ended
  | fired (s : ConsensusStatus)
deriving Repr, DecidableEq

/-- The while-let walk of DagConsensus::fire_consensus with explicit fuel;
the write-back inserts under the parent hash, so the source loop can
revisit keys and fuel bounds the otherwise unbounded iteration. -/
def dagWalk (cfg : ConsensusConfig) (txId : Nat) :
    Nat → HashTreeNode → Nat → HashTreeNode × WalkOutcome
  | 0, tree, _ => (tree, WalkOutcome.fuelOut)
  | fuel + 1, tree, ph =>
    match walkBody cfg txId tree ph with
    | none => (tree, WalkOutcome.ended)
    | some (_, tree1, some s) => (tree1, WalkOutcome.fired s)
    | some (ph1, tree1, none) => dagWalk cfg txId fuel tree1 ph1

/-- DagConsensus::fire_consensus after the tx-id unwrap, the network call
abstracted by its observed positive-reply count p (network.dag_query) and
the walk bounded by fuel: insert into the conflict set, test the
threshold, guard against an existing choice entry, record the choice and
walk the parent chain. The status is none only when fuel ran out inside
the walk. -/
def dagFireCore (cfg : ConsensusConfig) (st : EngineState) (sid txId parent : Nat)
    (p : Nat) (tree : HashTreeNode) (fuel : Nat) :
    EngineState × HashTreeNode × Option ConsensusStatus :=
  let st1 : EngineState := { st with conflict_set := conflictInsert st.conflict_set sid txId }
  if cfg.threshold p then
    match mapLookup st1.choice sid with
    | some _ => (st1, tree, some ConsensusStatus.Reject)
    | none =>
      let st2 : EngineState := { st1 with choice := mapInsert st1.choice sid txId }
      match dagWalk cfg txId fuel tree parent with
      | (tree1, WalkOutcome.fired s) => (st2, tree1, some s)
      | (tree1, WalkOutcome.ended) => (st2, tree1, some ConsensusStatus.Reject)
      | (tree1, WalkOutcome.fuelOut) => (st2, tree1, none)
  else (st1, tree, some ConsensusStatus.Reject)

/-- DagConsensus::fire_consensus: the self.query call unwraps the tx id
(none models the panic), then the core runs. -/
def dagFireConsensus (cfg : ConsensusConfig) (st : EngineState)
    (state : AccountStateChoice) (p : Nat) (tree : HashTreeNode) (fuel : Nat) :
    Option (EngineState × HashTreeNode × Option ConsensusStatus) :=
  match state.tx.get_tx_id with
  | none => none
  | some t => some (dagFireCore cfg st state.account_state_id t state.tx.parent p tree fuel)

/-- Mutable per-call state of the QuantumConsensus::fire_consensus loop:
the local confidence tallies, the engine's shared choice map, and the
choice, last_choice and choice_count locals. -/
structure QuantumLoopState where
  confidence : List (Nat × Nat)
  choiceMap : List (Nat × Nat)
  choice : Nat
  last_choice : Nat
  choice_count : Nat
deriving Repr, DecidableEq

/-- Inner for-loop of QuantumConsensus::fire_consensus over the conflict
set (quantum.rs): for each candidate that reached the threshold, bump its
confidence (entry.or_insert(1) += 1, so a fresh entry starts at 2), switch
the local choice on strictly larger confidence (the shared choice map is
touched through or_insert, which never overwrites the seeded entry), and
track the consecutive counter; some h is the early return
Accept(choice) when choice_count crosses beta. -/
def quantumInner (cfg : ConsensusConfig) (acceptance : List (Nat × Nat)) (sid : Nat) :
    List Nat → QuantumLoopState → QuantumLoopState × Option Nat
  | [], q => (q, none)
  | setId :: rest, q =>
    match mapLookup acceptance setId with
    | none => quantumInner cfg acceptance sid rest q
    | some p =>
      if cfg.threshold p then
        let conf1 :=
          mapInsert q.confidence setId (((mapLookup q.confidence setId).getD 1 + 1) % U64)
        let q1 : QuantumLoopState := { q with confidence := conf1 }
        let q2 : QuantumLoopState :=
          match mapLookup conf1 setId, mapLookup conf1 q1.choice with
          | some ic, some cc =>
            if cc < ic then
              { q1 with
                choice := setId
                choiceMap :=
                  match mapLookup q1.choiceMap sid with
                  | some _ => q1.choiceMap
                  | none => mapInsert q1.choiceMap sid setId }
            else q1
          | _, _ => q1
        if q2.last_choice ≠ setId then
          quantumInner cfg acceptance sid rest { q2 with last_choice := setId, choice_count := 0 }
        else
          let cnt := (q2.choice_count + 1) % U64
          if cfg.beta < cnt then ({ q2 with choice_count := cnt }, some q2.choice)
          else quantumInner cfg acceptance sid rest { q2 with choice_count := cnt }
      else quantumInner cfg acceptance sid rest q

/-- The round loop of QuantumConsensus::fire_consensus: each round samples
the network (the oracle maps the round index to the acceptance tallies of
network.query) and runs the inner loop over the conflict set, which the
source unwraps (it is present, having been inserted before the loop; getD
keeps the read total). The loop has no exit other than acceptance, so fuel
bounds the rounds and none models a run still looping. -/
def quantumLoop (cfg : ConsensusConfig) (cs : List (Nat × List Nat)) (sid : Nat)
    (oracle : Nat → List (Nat × Nat)) :
    Nat → Nat → QuantumLoopState → QuantumLoopState × Option ConsensusStatus
  | _, 0, q => (q, none)
  | round, fuel + 1, q =>
    match quantumInner cfg (oracle round) sid ((mapLookup cs sid).getD []) q with
    | (q1, some h) => (q1, some (ConsensusStatus.Accept h))
    | (q1, none) => quantumLoop cfg cs sid oracle (round + 1) fuel q1

/-- QuantumConsensus::fire_consensus after the tx-id unwrap: the exists
check precedes the conflict-set insert; an existing conflict set for the
account state returns InProgress at once, otherwise the choice map is
seeded with the tx id and the loop runs. -/
def quantumFireCore (cfg : ConsensusConfig) (st : EngineState) (sid txId : Nat)
    (oracle : Nat → List (Nat × Nat)) (fuel : Nat) :
    EngineState × Option ConsensusStatus :=
  let ex := (mapLookup st.conflict_set sid).isSome
  let cs1 := conflictInsert st.conflict_set sid txId
  if ex then ({ st with conflict_set := cs1 }, some ConsensusStatus.InProgress)
  else
    let q0 : QuantumLoopState := ⟨[], mapInsert st.choice sid txId, txId, txId, 0⟩
    match quantumLoop cfg cs1 sid oracle 0 fuel q0 with
    | (q1, res) => ({ conflict_set := cs1, choice := q1.choiceMap }, res)

/-- QuantumConsensus::fire_consensus: the self.query call unwraps the tx id
(none models the panic), then the core runs. -/
def quantumFireConsensus (cfg : ConsensusConfig) (st : EngineState)
    (state : AccountStateChoice) (oracle : Nat → List (Nat × Nat)) (fuel : Nat) :
    Option (EngineState × Option ConsensusStatus) :=
  match state.tx.get_tx_id with
  | none => none
  | some t => some (quantumFireCore cfg st state.account_state_id t oracle fuel)

/-- Initial TTL of agent-message payload entries
(p2p/src/node/messaging.rs). -/
def TTL : Nat := 5

/-- One payload entry of an AgentMessage: target hash, inner message
(opaque for forwarding, modelled as Nat) and remaining hop budget. -/
structure AgentEntry where
  target : Nat
  message : Nat
  step : Nat
deriving Repr, DecidableEq

/-- What handle_agent_message does with one popped payload entry. -/
inductive HandleAction
  | deliver (message : Nat)
  | forward (next_hop : Nat) (e : AgentEntry)
  | drop
deriving Repr, DecidableEq

/-- Per-entry dispatch of Messaging::handle_agent_message: deliver entries
addressed to us; forward entries with step at least 1 towards the routing
next hop with the step decremented; drop exhausted entries. none models
the panic of the routing-table unwrap on an unknown target. -/
def handleEntry (ourHash : Nat) (routing : Nat → Option (Nat × Nat))
    (e : AgentEntry) : Option HandleAction :=
  if e.target = ourHash then some (HandleAction.deliver e.message)
  else if 1 ≤ e.step then
    match routing e.target with
    | some (nh, _) => some (HandleAction.forward nh ⟨e.target, e.message, e.step - 1⟩)
    | none => none
  else some HandleAction.drop

/-- Messaging::send_message: push (target, message, TTL) into the outbox
slot of the routing next hop; none models the routing unwrap panic. -/
def send_message (outbox : List (Nat × List AgentEntry))
    (routing : Nat → Option (Nat × Nat)) (dst msg : Nat) :
    Option (List (Nat × List AgentEntry)) :=
  match routing dst with
  | none => none
  | some (nh, _) =>
    some (mapInsert outbox nh ((mapLookup outbox nh).getD [] ++ [⟨dst, msg, TTL⟩]))

/-- A chain of relays: each hop (its node hash and routing view) must
forward the entry for the chain to continue; the result is the entry as it
leaves the last hop, none when some hop delivered, dropped or panicked
instead of forwarding. -/
def forwardChain : List (Nat × (Nat → Option (Nat × Nat))) → AgentEntry → Option AgentEntry
  | [], e => some e
  | (our, rt) :: hops, e =>
    match handleEntry our rt e with
    | some (HandleAction.forward _ e1) => forwardChain hops e1
    | _ => none

/-- MAX_CONNECTION_LEN of p2p/src/node/connection.rs. -/
def MAX_CONNECTION_LEN : Nat := 5

/-- ConnectionState of p2p/src/node/connection.rs. -/
inductive ConnectionState
  | Connecting
  | Incoming
  | Connected
deriving Repr, DecidableEq

/-- RoutingTable of p2p/src/node/connection.rs: destination hash to
(next hop, hop count), plus the gossip version counter. -/
structure RoutingTable where
  entries : List (Nat × (Nat × Nat))
  version : Nat
deriving Repr, DecidableEq

/-- Connection manager state (p2p/src/node/connection.rs): the connection
map socket to (optional peer hash, FSM state), the active-connections map
peer hash to socket, and the routing table. Sockets are Nat. -/
structure Connection where
  entries : List (Nat × (Option Nat × ConnectionState))
  active_connections : List (Nat × Nat)
  routing_table : RoutingTable
deriving Repr, DecidableEq

/-- Wire messages the connection manager emits, as far as the model needs
them. -/
inductive SentMessage
  | Identification (h : Nat)
  | Contacts (socks : List Nat)
  | RoutingTableShared
deriving Repr, DecidableEq

/-- Connection::bootstrap_with: record Connecting with no identity and dial. -/
def bootstrap_with (c : Connection) (sock : Nat) : Connection :=
  { c with entries := mapInsert c.entries sock (none, ConnectionState.Connecting) }

/-- Connection::bootstrap: walk the contact list, stopping at a full map
and skipping already-known sockets. -/
def bootstrap (c : Connection) : List Nat → Connection
  | [] => c
  | sock :: rest =>
    if c.entries.length = MAX_CONNECTION_LEN then c
    else if (mapLookup c.entries sock).isSome then bootstrap c rest
    else bootstrap (bootstrap_with c sock) rest

/-- Connection::connect_to: record the peer (hash known) as Connecting and
dial; the insert is unconditional, with no fullness check. -/
def connect_to (c : Connection) (hash sock : Nat) : Connection :=
  { c with entries := mapInsert c.entries sock (some hash, ConnectionState.Connecting) }

/-- Connection::handle_successful_connection: a known socket is sent our
Identification and, when its peer hash is already known, promoted to
Connected (activating it, adding a direct route, bumping the version and
gossiping the routing table); an unknown socket is refused with a Contacts
referral when the map is full, otherwise recorded as Incoming and sent our
Identification. -/
def handle_successful_connection (c : Connection) (sock our : Nat) :
    Connection × List SentMessage :=
  match mapLookup c.entries sock with
  | some (some key, _) =>
    ({ c with
        entries := mapInsert c.entries sock (some key, ConnectionState.Connected)
        active_connections := mapInsert c.active_connections key sock
        routing_table :=
          { entries := mapInsert c.routing_table.entries key (key, 1)
            version := c.routing_table.version + 1 } },
     [SentMessage.Identification our, SentMessage.RoutingTableShared])
  | some (none, _) => (c, [SentMessage.Identification our])
  | none =>
    if c.entries.length = MAX_CONNECTION_LEN then
      (c, [SentMessage.Contacts (c.entries.map Prod.fst)])
    else
      ({ c with entries := mapInsert c.entries sock (none, ConnectionState.Incoming) },
       [SentMessage.Identification our])

/-- Connection::handle_peer_identification: only a known socket whose peer
hash is still unknown is filled in and promoted to Connected (activating
it, adding a direct route, bumping the version and gossiping);
re-identification is a no-op. -/
def handle_peer_identification (c : Connection) (sock peerHash : Nat) :
    Connection × List SentMessage :=
  match mapLookup c.entries sock with
  | some (none, _) =>
    ({ c with
        entries := mapInsert c.entries sock (some peerHash, ConnectionState.Connected)
        active_connections := mapInsert c.active_connections peerHash sock
        routing_table :=
          { entries := mapInsert c.routing_table.entries peerHash (peerHash, 1)
            version := c.routing_table.version + 1 } },
     [SentMessage.RoutingTableShared])
  | _ => (c, [])

/-- Connection::handle_connection_failure: drop the socket entry, if any. -/
def handle_connection_failure (c : Connection) (sock : Nat) : Connection :=
  { c with entries := mapRemove c.entries sock }

theorem mapLookup_mapInsert_self {α : Type} (m : List (Nat × α)) (k : Nat) (v : α) :
    mapLookup (mapInsert m k v) k = some v := by
  induction m with
  | nil => simp [mapInsert, mapLookup]
  | cons hd tl ih =>
    obtain ⟨k0, v0⟩ := hd
    by_cases h : k0 = k
    · subst h; simp [mapInsert, mapLookup]
    · simp [mapInsert, mapLookup, h, ih]

theorem length_mapInsert {α : Type} (m : List (Nat × α)) (k : Nat) (v : α) :
    (mapInsert m k v).length =
      if (mapLookup m k).isSome then m.length else m.length + 1 := by
  induction m with
  | nil => simp [mapInsert, mapLookup]
  | cons hd tl ih =>
    obtain ⟨k0, v0⟩ := hd
    by_cases h : k0 = k
    · subst h; simp [mapInsert, mapLookup]
    · simp [mapInsert, mapLookup, h, ih]
      split <;> simp

theorem length_mapRemove_le {α : Type} (m : List (Nat × α)) (k : Nat) :
    (mapRemove m k).length ≤ m.length := by
  induction m with
  | nil => simp [mapRemove]
  | cons hd tl ih =>
    obtain ⟨k0, v0⟩ := hd
    by_cases h : k0 = k
    · simp [mapRemove, h]
    · simp only [mapRemove, h, if_false, List.length_cons]
      omega

theorem mapLookup_eq_none_of_not_mem {α : Type} (m : List (Nat × α)) (k : Nat)
    (h : k ∉ m.map Prod.fst) : mapLookup m k = none := by
  induction m with
  | nil => simp [mapLookup]
  | cons hd tl ih =>
    obtain ⟨k0, v0⟩ := hd
    simp only [List.map_cons, List.mem_cons] at h
    push_neg at h
    have hk : k0 ≠ k := fun e => h.1 e.symm
    simp [mapLookup, hk, ih h.2]

theorem mapLookup_mem {α : Type} (m : List (Nat × α)) (k : Nat) (v : α)
    (h : mapLookup m k = some v) : (k, v) ∈ m := by
  induction m with
  | nil => simp [mapLookup] at h
  | cons hd tl ih =>
    obtain ⟨k0, v0⟩ := hd
    by_cases h0 : k0 = k
    · subst h0
      simp [mapLookup] at h
      simp [h]
    · simp [mapLookup, h0] at h
      exact List.mem_cons_of_mem _ (ih h)

theorem mem_mapLookup {α : Type} (m : List (Nat × α)) (k : Nat) (v : α)
    (hnd : keysNodup m) (h : (k, v) ∈ m) : mapLookup m k = some v := by
  induction m with
  | nil => simp at h
  | cons hd tl ih =>
    obtain ⟨k0, v0⟩ := hd
    simp only [keysNodup, List.map_cons, List.nodup_cons] at hnd
    rcases List.mem_cons.mp h with h1 | h2
    · obtain ⟨e1, e2⟩ := Prod.mk.injEq .. ▸ h1
      subst e1; subst e2
      simp [mapLookup]
    · have hk : k0 ≠ k := by
        intro e
        subst e
        exact hnd.1 (List.mem_map.mpr ⟨(k0, v), h2, rfl⟩)
      simp [mapLookup, hk]
      exact ih hnd.2 h2

theorem U64_pos : 0 < U64 := by norm_num [U64]

theorem lookupV_lt_of_values (m : List (Nat × Nat))
    (h : ∀ p ∈ m, p.2 < U64) (n : Nat) : lookupV m n < U64 := by
  unfold lookupV
  cases hm : mapLookup m n with
  | none => simpa using U64_pos
  | some v => simpa using h (n, v) (mapLookup_mem m n v hm)

theorem mapLookup_upsertAdd (acc : List (Nat × Nat)) (k c n : Nat) :
    mapLookup (upsertAdd acc k c) n =
      if k = n then
        some (match mapLookup acc k with
              | some v => (v + c) % U64
              | none => c)
      else mapLookup acc n := by
  induction acc with
  | nil => simp [upsertAdd, mapLookup]
  | cons hd tl ih =>
    obtain ⟨k0, v0⟩ := hd
    by_cases h0 : k0 = k
    · subst h0
      simp only [upsertAdd, if_pos rfl, mapLookup]
      by_cases h1 : k0 = n <;> simp [h1]
    · simp only [upsertAdd, h0, if_false, mapLookup]
      by_cases h1 : k0 = n
      · subst h1
        have : k ≠ k0 := fun e => h0 e.symm
        simp [mapLookup, this]
      · simp [mapLookup, h1, ih, h0]

theorem lookupV_mergeFold (l : List (Nat × Nat)) :
    keysNodup l → (∀ p ∈ l, p.2 < U64) →
    ∀ acc : List (Nat × Nat), (∀ n, lookupV acc n < U64) →
    ∀ n, lookupV (l.foldl (fun a e => upsertAdd a e.1 e.2) acc) n =
      (lookupV acc n + lookupV l n) % U64 := by
  induction l with
  | nil =>
    intro _ _ acc hacc n
    have h := Nat.mod_eq_of_lt (hacc n)
    unfold lookupV at h ⊢
    simp [mapLookup, h]
  | cons hd tl ih =>
    intro hnd hval acc hacc n
    obtain ⟨k, c⟩ := hd
    simp only [keysNodup, List.map_cons, List.nodup_cons] at hnd
    have hc : c < U64 := hval (k, c) (List.mem_cons_self _ _)
    have hacc1 : ∀ n, lookupV (upsertAdd acc k c) n < U64 := by
      intro m
      unfold lookupV
      rw [mapLookup_upsertAdd]
      by_cases hm : k = m
      · simp only [hm, if_pos rfl]
        cases mapLookup acc m <;> simp [Nat.mod_lt _ U64_pos, hc]
      · simp only [hm, if_false]
        exact hacc m
    have step := ih hnd.2 (fun p hp => hval p (List.mem_cons_of_mem _ hp))
      (upsertAdd acc k c) hacc1 n
    simp only [List.foldl_cons]
    rw [step]
    by_cases hm : k = n
    · subst hm
      have htl : mapLookup tl k = none :=
        mapLookup_eq_none_of_not_mem tl k hnd.1
      have hU : U64 = 18446744073709551616 := by norm_num [U64]
      cases hacck : mapLookup acc k with
      | none =>
        simp [lookupV, mapLookup_upsertAdd, hacck, htl, mapLookup, Nat.mod_eq_of_lt hc]
      | some v =>
        have hmm : (v + c) % U64 % U64 = (v + c) % U64 := Nat.mod_mod_of_dvd _ dvd_rfl
        simp [lookupV, mapLookup_upsertAdd, hacck, htl, mapLookup, hmm]
    · simp [lookupV, mapLookup_upsertAdd, hm, mapLookup]

/-- C2: threshold(p) is the strict comparison p > alpha * k, so whenever
alpha * k is the integer m, threshold(m) is false and threshold(m + 1) is
true (the f64 parameters are modelled as exact rationals; at the spec's
instance alpha = 0.6, k = 10 the binary64 product is exactly 6, matching
the model). -/
theorem c2_threshold_strict (c : ConsensusConfig) (m : Nat)
    (h : c.alpha * (c.k : ℚ) = (m : ℚ)) :
    (∀ p : Nat, c.threshold p = true ↔ (p : ℚ) > c.alpha * (c.k : ℚ)) ∧
    c.threshold m = false ∧ c.threshold (m + 1) = true := by
  refine ⟨fun p => ?_, ?_, ?_⟩
  · simp [ConsensusConfig.threshold]
  · simp [ConsensusConfig.threshold, h]
  · simp only [ConsensusConfig.threshold, h, decide_eq_true_eq]
    push_cast
    linarith

/-- Witness for c2_threshold_strict at the spec's instance alpha = 3/5,
k = 10, where alpha * k = 6. -/
theorem c2_threshold_strict_witness :
    ((ConsensusConfig.new (3/5) 2 2 10).alpha *
        ((ConsensusConfig.new (3/5) 2 2 10).k : ℚ) = ((6 : Nat) : ℚ)) ∧
    ((∀ p : Nat, (ConsensusConfig.new (3/5) 2 2 10).threshold p = true ↔
        (p : ℚ) > (ConsensusConfig.new (3/5) 2 2 10).alpha *
          ((ConsensusConfig.new (3/5) 2 2 10).k : ℚ)) ∧
     (ConsensusConfig.new (3/5) 2 2 10).threshold 6 = false ∧
     (ConsensusConfig.new (3/5) 2 2 10).threshold 7 = true) :=
  ⟨by norm_num [ConsensusConfig.new],
   c2_threshold_strict (ConsensusConfig.new (3/5) 2 2 10) 6
     (by norm_num [ConsensusConfig.new])⟩

/-- C5 counterexample: merging two clocks that both map key 1 to 2 yields
4 at key 1 — the source sums counters — while the claimed componentwise
max is 2. -/
theorem c5_merge_counterexample :
    lookupV (Hvc.merge ⟨[(1, 2)], 0⟩ ⟨[(1, 2)], 0⟩).vector 1 = 4 ∧
    max (lookupV ((⟨[(1, 2)], 0⟩ : Hvc)).vector 1)
      (lookupV ((⟨[(1, 2)], 0⟩ : Hvc)).vector 1) = 2 ∧
    (4 : Nat) ≠ 2 := by decide

/-- C5 amended: merge produces a fresh HVC whose hierarchical_order is 0
and whose vector at every key n is the wrapping u64 SUM (not the max) of
the two components, missing keys read as 0; stated under the HashMap key
uniqueness and u64 range invariants. -/
theorem c5_merge_sums (a b : Hvc) (hnb : keysNodup b.vector)
    (ha : ∀ p ∈ a.vector, p.2 < U64) (hb : ∀ p ∈ b.vector, p.2 < U64) :
    (Hvc.merge a b).hierarchical_order = 0 ∧
    ∀ n, lookupV (Hvc.merge a b).vector n =
      (lookupV a.vector n + lookupV b.vector n) % U64 :=
  ⟨rfl, fun n =>
    lookupV_mergeFold b.vector hnb hb a.vector
      (lookupV_lt_of_values a.vector ha) n⟩

theorem scanSelf_eq_none (l : List (Nat × Nat)) (f : Nat → Nat)
    (h : ∀ p ∈ l, p.2 = f p.1) : scanSelf l f = none := by
  induction l with
  | nil => rfl
  | cons hd tl ih =>
    obtain ⟨k, v⟩ := hd
    have he : v = f k := h (k, v) (List.mem_cons_self _ _)
    simp [scanSelf, he, ih fun p hp => h p (List.mem_cons_of_mem _ hp)]

theorem scanSelf_some_true (l : List (Nat × Nat)) (f : Nat → Nat)
    (h : scanSelf l f = some true) : ∃ p ∈ l, p.2 < f p.1 := by
  induction l with
  | nil => simp [scanSelf] at h
  | cons hd tl ih =>
    obtain ⟨k, v⟩ := hd
    by_cases h1 : v < f k
    · exact ⟨(k, v), List.mem_cons_self _ _, h1⟩
    · by_cases h2 : f k < v
      · simp [scanSelf, h1, h2] at h
      · simp only [scanSelf, h1, h2, if_false] at h
        obtain ⟨p, hp, hlt⟩ := ih h
        exact ⟨p, List.mem_cons_of_mem _ hp, hlt⟩

theorem scanSelf_true_of (l : List (Nat × Nat)) (f : Nat → Nat)
    (hle : ∀ p ∈ l, p.2 ≤ f p.1) (p0 : Nat × Nat) (hp0 : p0 ∈ l)
    (hlt : p0.2 < f p0.1) : scanSelf l f = some true := by
  induction l with
  | nil => simp at hp0
  | cons hd tl ih =>
    obtain ⟨k, v⟩ := hd
    by_cases h1 : v < f k
    · simp [scanSelf, h1]
    · have hv : v = f k :=
        Nat.le_antisymm (hle (k, v) (List.mem_cons_self _ _)) (Nat.le_of_not_lt h1)
      have h2 : ¬ f k < v := by omega
      rcases List.mem_cons.mp hp0 with he | htl
      · subst he
        simp at hlt
        omega
      · simp only [scanSelf, h1, h2, if_false]
        exact ih (fun p hp => hle p (List.mem_cons_of_mem _ hp)) htl

theorem scanOther_eq_none (l : List (Nat × Nat)) (f : Nat → Nat)
    (h : ∀ p ∈ l, f p.1 = p.2) : scanOther l f = none := by
  induction l with
  | nil => rfl
  | cons hd tl ih =>
    obtain ⟨k, v⟩ := hd
    have he : f k = v := h (k, v) (List.mem_cons_self _ _)
    simp [scanOther, he, ih fun p hp => h p (List.mem_cons_of_mem _ hp)]

theorem scanOther_some_true (l : List (Nat × Nat)) (f : Nat → Nat)
    (h : scanOther l f = some true) : ∃ p ∈ l, f p.1 < p.2 := by
  induction l with
  | nil => simp [scanOther] at h
  | cons hd tl ih =>
    obtain ⟨k, v⟩ := hd
    by_cases h1 : f k < v
    · exact ⟨(k, v), List.mem_cons_self _ _, h1⟩
    · by_cases h2 : v < f k
      · simp [scanOther, h1, h2] at h
      · simp only [scanOther, h1, h2, if_false] at h
        obtain ⟨p, hp, hlt⟩ := ih h
        exact ⟨p, List.mem_cons_of_mem _ hp, hlt⟩

theorem scanOther_true_of (l : List (Nat × Nat)) (f : Nat → Nat)
    (hle : ∀ p ∈ l, f p.1 ≤ p.2) (p0 : Nat × Nat) (hp0 : p0 ∈ l)
    (hlt : f p0.1 < p0.2) : scanOther l f = some true := by
  induction l with
  | nil => simp at hp0
  | cons hd tl ih =>
    obtain ⟨k, v⟩ := hd
    by_cases h1 : f k < v
    · simp [scanOther, h1]
    · have hv : f k = v :=
        Nat.le_antisymm (hle (k, v) (List.mem_cons_self _ _)) (Nat.le_of_not_lt h1)
      have h2 : ¬ v < f k := by omega
      rcases List.mem_cons.mp hp0 with he | htl
      · subst he
        simp at hlt
        omega
      · simp only [scanOther, h1, h2, if_false]
        exact ih (fun p hp => hle p (List.mem_cons_of_mem _ hp)) htl

theorem lookupV_of_mem (m : List (Nat × Nat)) (k v : Nat)
    (hnd : keysNodup m) (h : (k, v) ∈ m) : lookupV m k = v := by
  simp [lookupV, mem_mapLookup m k v hnd h]

/-- C6 counterexample: for a = {1 ↦ 1, 2 ↦ 3} and b = {1 ↦ 2, 2 ↦ 1} the
source returns true (the first scanned component 1 < 2 decides), yet a is
not componentwise below b because a[2] = 3 > 1 = b[2]; the claimed iff
fails. -/
theorem c6_happened_before_counterexample :
    Hvc.happened_before ⟨[(1, 1), (2, 3)], 0⟩ ⟨[(1, 2), (2, 1)], 0⟩ = true ∧
    ¬ specHappenedBefore ⟨[(1, 1), (2, 3)], 0⟩ ⟨[(1, 2), (2, 1)], 0⟩ := by
  constructor
  · decide
  · intro h
    exact absurd (h.1 2) (by decide)

/-- C6 amended: happened_before is decided by the first unequal component
in iteration order (self's entries, then other's), so it is only a
one-sided approximation of the componentwise order: it is false on equal
clocks, it returns true whenever the spec's componentwise relation holds,
and whenever it returns true some component of a is strictly below the
matching component of b — but it may also return true for concurrent
clocks (see the counterexample). Stated under the HashMap key-uniqueness
invariant. -/
theorem c6_happened_before_amended (a b : Hvc)
    (hna : keysNodup a.vector) (hnb : keysNodup b.vector) :
    a.happened_before a = false ∧
    (specHappenedBefore a b → a.happened_before b = true) ∧
    (a.happened_before b = true →
      ∃ k, lookupV a.vector k < lookupV b.vector k) := by
  refine ⟨?_, ?_, ?_⟩
  · have h1 : scanSelf a.vector (lookupV a.vector) = none :=
      scanSelf_eq_none _ _ fun p hp => (lookupV_of_mem _ p.1 p.2 hna hp).symm
    have h2 : scanOther a.vector (lookupV a.vector) = none :=
      scanOther_eq_none _ _ fun p hp => lookupV_of_mem _ p.1 p.2 hna hp
    simp [Hvc.happened_before, h1, h2]
  · rintro ⟨hle, k0, hk0⟩
    have hle1 : ∀ p ∈ a.vector, p.2 ≤ lookupV b.vector p.1 := fun p hp => by
      rw [← lookupV_of_mem a.vector p.1 p.2 hna hp]
      exact hle p.1
    by_cases hex : ∃ p ∈ a.vector, p.2 < lookupV b.vector p.1
    · obtain ⟨p0, hp0, hlt⟩ := hex
      have := scanSelf_true_of a.vector (lookupV b.vector) hle1 p0 hp0 hlt
      simp [Hvc.happened_before, this]
    · push_neg at hex
      have hall : ∀ p ∈ a.vector, p.2 = lookupV b.vector p.1 := fun p hp =>
        Nat.le_antisymm (hle1 p hp) (hex p hp)
      have h1 : scanSelf a.vector (lookupV b.vector) = none :=
        scanSelf_eq_none _ _ hall
      have hbk0 : 0 < lookupV b.vector k0 := Nat.lt_of_le_of_lt (Nat.zero_le _) hk0
      have hsome : mapLookup b.vector k0 = some (lookupV b.vector k0) := by
        unfold lookupV at hbk0 ⊢
        cases hb : mapLookup b.vector k0 with
        | none => rw [hb] at hbk0; simp at hbk0
        | some v => simp [hb]
      have hmem : (k0, lookupV b.vector k0) ∈ b.vector := mapLookup_mem _ _ _ hsome
      have hle2 : ∀ p ∈ b.vector, lookupV a.vector p.1 ≤ p.2 := fun p hp => by
        rw [← lookupV_of_mem b.vector p.1 p.2 hnb hp]
        exact hle p.1
      have h2 := scanOther_true_of b.vector (lookupV a.vector) hle2
        (k0, lookupV b.vector k0) hmem hk0
      simp [Hvc.happened_before, h1, h2]
  · intro htrue
    unfold Hvc.happened_before at htrue
    cases h1 : scanSelf a.vector (lookupV b.vector) with
    | some r =>
      rw [h1] at htrue
      cases r with
      | false => simp at htrue
      | true =>
        obtain ⟨p, hp, hlt⟩ := scanSelf_some_true _ _ h1
        exact ⟨p.1, by rw [lookupV_of_mem a.vector p.1 p.2 hna hp]; exact hlt⟩
    | none =>
      rw [h1] at htrue
      cases h2 : scanOther b.vector (lookupV a.vector) with
      | some r =>
        rw [h2] at htrue
        cases r with
        | false => simp at htrue
        | true =>
          obtain ⟨p, hp, hlt⟩ := scanOther_some_true _ _ h2
          exact ⟨p.1, by rw [lookupV_of_mem b.vector p.1 p.2 hnb hp]; exact hlt⟩
      | none => rw [h2] at htrue; simp at htrue

/-- Witness for c6_happened_before_amended on a = {1 ↦ 1}, b = {1 ↦ 2}. -/
theorem c6_happened_before_amended_witness :
    (Hvc.happened_before ⟨[(1, 1)], 0⟩ ⟨[(1, 1)], 0⟩ = false ∧
     (specHappenedBefore ⟨[(1, 1)], 0⟩ ⟨[(1, 2)], 0⟩ →
       Hvc.happened_before ⟨[(1, 1)], 0⟩ ⟨[(1, 2)], 0⟩ = true) ∧
     (Hvc.happened_before ⟨[(1, 1)], 0⟩ ⟨[(1, 2)], 0⟩ = true →
       ∃ k, lookupV ([(1, 1)] : List (Nat × Nat)) k <
         lookupV ([(1, 2)] : List (Nat × Nat)) k)) :=
  c6_happened_before_amended ⟨[(1, 1)], 0⟩ ⟨[(1, 2)], 0⟩ (by decide) (by decide)

/-- Witness for c5_merge_sums on the clocks {1 ↦ 2} and {1 ↦ 3}. -/
theorem c5_merge_sums_witness :
    ((Hvc.merge ⟨[(1, 2)], 0⟩ ⟨[(1, 3)], 0⟩).hierarchical_order = 0 ∧
     ∀ n, lookupV (Hvc.merge ⟨[(1, 2)], 0⟩ ⟨[(1, 3)], 0⟩).vector n =
       (lookupV ([(1, 2)] : List (Nat × Nat)) n +
        lookupV ([(1, 3)] : List (Nat × Nat)) n) % U64) :=
  c5_merge_sums ⟨[(1, 2)], 0⟩ ⟨[(1, 3)], 0⟩ (by decide)
    (by decide) (by decide)

/-- C1 counterexample: with choice[5] = 7 recorded (and the matching
conflict-set entry every reachable state has), a quantum fire_consensus
for state 5 with the different tx id 9 returns InProgress, not the claimed
Reject. -/
theorem c1_counterexample :
    (quantumFireCore (ConsensusConfig.new 1 2 2 10) ⟨[(5, [7])], [(5, 7)]⟩ 5 9
        (fun _ => []) 0).2 = some ConsensusStatus.InProgress ∧
    mapLookup ((⟨[(5, [7])], [(5, 7)]⟩ : EngineState)).choice 5 = some 7 ∧
    (9 : Nat) ≠ 7 ∧
    ConsensusStatus.InProgress ≠ ConsensusStatus.Reject := by decide

/-- C1 amended: once choice[s] = t, a DAG fire_consensus for account state
s (any tx id, any reply count, any fuel) returns Reject and leaves the
choice map unchanged; the Quantum variant instead returns InProgress
whenever the conflict set already has an entry for s — which holds in
every state reachable after choice[s] was set — also leaving the choice
map unchanged. -/
theorem c1_no_double_accept_amended (cfg : ConsensusConfig) (st : EngineState)
    (s t t1 parent p fuel : Nat) (tree : HashTreeNode)
    (oracle : Nat → List (Nat × Nat))
    (hch : mapLookup st.choice s = some t) :
    ((dagFireCore cfg st s t1 parent p tree fuel).2.2 = some ConsensusStatus.Reject ∧
     (dagFireCore cfg st s t1 parent p tree fuel).1.choice = st.choice) ∧
    ((mapLookup st.conflict_set s).isSome = true →
     (quantumFireCore cfg st s t1 oracle fuel).2 = some ConsensusStatus.InProgress ∧
     (quantumFireCore cfg st s t1 oracle fuel).1.choice = st.choice) := by
  constructor
  · unfold dagFireCore
    cases ht : cfg.threshold p with
    | true => simp [ht, hch]
    | false => simp [ht]
  · intro hcs
    unfold quantumFireCore
    simp [hcs]

/-- Witness for c1_no_double_accept_amended at the counterexample state. -/
theorem c1_no_double_accept_amended_witness :
    (((dagFireCore (ConsensusConfig.new 1 2 2 10) ⟨[(5, [7])], [(5, 7)]⟩ 5 9 0 0 [] 0).2.2 =
        some ConsensusStatus.Reject ∧
      (dagFireCore (ConsensusConfig.new 1 2 2 10) ⟨[(5, [7])], [(5, 7)]⟩ 5 9 0 0 [] 0).1.choice =
        (⟨[(5, [7])], [(5, 7)]⟩ : EngineState).choice) ∧
     ((mapLookup ((⟨[(5, [7])], [(5, 7)]⟩ : EngineState)).conflict_set 5).isSome = true →
      (quantumFireCore (ConsensusConfig.new 1 2 2 10) ⟨[(5, [7])], [(5, 7)]⟩ 5 9
          (fun _ => []) 0).2 = some ConsensusStatus.InProgress ∧
      (quantumFireCore (ConsensusConfig.new 1 2 2 10) ⟨[(5, [7])], [(5, 7)]⟩ 5 9
          (fun _ => []) 0).1.choice = (⟨[(5, [7])], [(5, 7)]⟩ : EngineState).choice)) :=
  c1_no_double_accept_amended (ConsensusConfig.new 1 2 2 10) ⟨[(5, [7])], [(5, 7)]⟩
    5 7 9 0 0 0 [] (fun _ => []) (by decide)

theorem quantumLoop_only_accepts (cfg : ConsensusConfig) (cs : List (Nat × List Nat))
    (sid : Nat) (oracle : Nat → List (Nat × Nat)) :
    ∀ fuel round q s, (quantumLoop cfg cs sid oracle round fuel q).2 = some s →
      ∃ h, s = ConsensusStatus.Accept h := by
  intro fuel
  induction fuel with
  | zero =>
    intro round q s h
    simp [quantumLoop] at h
  | succ m ih =>
    intro round q s h
    unfold quantumLoop at h
    cases hq : quantumInner cfg (oracle round) sid ((mapLookup cs sid).getD []) q with
    | mk q1 r =>
      rw [hq] at h
      cases r with
      | some hh =>
        simp at h
        exact ⟨hh, h.symm⟩
      | none =>
        exact ih (round + 1) q1 s h

/-- C3: a quantum fire_consensus for a state with no existing conflict-set
entry never returns Reject (nor InProgress): every terminating outcome of
the round loop is an Accept issued when the consecutive counter crosses
beta, and with no acceptance the loop only runs out of fuel (the fuel
parameter bounds the source's unbounded loop; none models a call still
looping). -/
theorem c3_quantum_never_rejects (cfg : ConsensusConfig) (st : EngineState)
    (sid txId fuel : Nat) (oracle : Nat → List (Nat × Nat))
    (hnew : mapLookup st.conflict_set sid = none) :
    (quantumFireCore cfg st sid txId oracle fuel).2 ≠ some ConsensusStatus.Reject ∧
    (quantumFireCore cfg st sid txId oracle fuel).2 ≠ some ConsensusStatus.InProgress ∧
    (∀ s, (quantumFireCore cfg st sid txId oracle fuel).2 = some s →
      ∃ h, s = ConsensusStatus.Accept h) := by
  have key : ∀ s, (quantumFireCore cfg st sid txId oracle fuel).2 = some s →
      ∃ h, s = ConsensusStatus.Accept h := by
    intro s hs
    unfold quantumFireCore at hs
    rw [hnew] at hs
    simp only [Option.isSome_none, Bool.false_eq_true, if_false] at hs
    cases hq : quantumLoop cfg (conflictInsert st.conflict_set sid txId) sid oracle 0 fuel
        ⟨[], mapInsert st.choice sid txId, txId, txId, 0⟩ with
    | mk q1 res =>
      rw [hq] at hs
      simp only at hs
      refine quantumLoop_only_accepts cfg (conflictInsert st.conflict_set sid txId)
        sid oracle fuel 0 ⟨[], mapInsert st.choice sid txId, txId, txId, 0⟩ s ?_
      rw [hq]
      exact hs
  refine ⟨fun h => ?_, fun h => ?_, key⟩
  · obtain ⟨hh, e⟩ := key _ h
    simp at e
  · obtain ⟨hh, e⟩ := key _ h
    simp at e

/-- Witness for c3_quantum_never_rejects on an empty engine. -/
theorem c3_quantum_never_rejects_witness :
    ((quantumFireCore (ConsensusConfig.new 1 2 2 10) ⟨[], []⟩ 0 1
        (fun _ => []) 0).2 ≠ some ConsensusStatus.Reject ∧
     (quantumFireCore (ConsensusConfig.new 1 2 2 10) ⟨[], []⟩ 0 1
        (fun _ => []) 0).2 ≠ some ConsensusStatus.InProgress ∧
     (∀ s, (quantumFireCore (ConsensusConfig.new 1 2 2 10) ⟨[], []⟩ 0 1
        (fun _ => []) 0).2 = some s → ∃ h, s = ConsensusStatus.Accept h)) :=
  c3_quantum_never_rejects (ConsensusConfig.new 1 2 2 10) ⟨[], []⟩ 0 1 0
    (fun _ => []) rfl

/-- C4 counterexample: the tree maps hash 10 to parent 11 and a node with
node = 1, last = 3, count = 0 whose preferred hash 2 has NO tree entry;
one walk iteration writes the node back completely unchanged (last still
3, count still 0), although node ≠ last, so the claimed unconditional
last/count update does not happen. -/
theorem c4_counterexample :
    walkBody (ConsensusConfig.new (3/5) 2 2 10) 99 [(10, (11, ⟨1, 0, 2, 3, 0⟩))] 10 =
      some (11, [(10, (11, ⟨1, 0, 2, 3, 0⟩)), (11, (11, ⟨1, 0, 2, 3, 0⟩))], none) ∧
    (⟨1, 0, 2, 3, 0⟩ : TreeNode).node ≠ (⟨1, 0, 2, 3, 0⟩ : TreeNode).last ∧
    mapLookup ([(10, (11, ⟨1, 0, 2, 3, 0⟩))] : HashTreeNode)
      (⟨1, 0, 2, 3, 0⟩ : TreeNode).preferred = none := by decide

/-- C4 amended: on a walk iteration the last/count update (like the
preferred switch) is applied only when the tree has an entry at
node.preferred; when that entry is absent the node is written back
unchanged. When it is present, last/count follow the claimed rule: reset
on a change of node, increment otherwise. -/
theorem c4_walk_update_amended (cfg : ConsensusConfig) (txId : Nat)
    (tree : HashTreeNode) (ph pp : Nat) (n : TreeNode)
    (h : mapLookup tree ph = some (pp, n)) :
    (mapLookup tree n.preferred = none →
      ∃ r, walkBody cfg txId tree ph = some (pp, mapInsert tree pp (pp, n), r)) ∧
    (∀ q pn, mapLookup tree n.preferred = some (q, pn) →
      ∃ n2 r, walkBody cfg txId tree ph = some (pp, mapInsert tree pp (pp, n2), r) ∧
        (n.node ≠ n.last → n2.last = n.node ∧ n2.count = 0) ∧
        (n.node = n.last → n2.last = n.last ∧ n2.count = (n.count + 1) % U64)) := by
  constructor
  · intro hpref
    simp only [walkBody, h, hpref]
    split_ifs <;> exact ⟨_, rfl⟩
  · intro q pn hpref
    simp only [walkBody, h, hpref]
    by_cases hnl : n.node = n.last
    · by_cases hcmp : pn.confidence < n.confidence
      · simp only [hcmp, ite_true, hnl, ne_eq, not_true_eq_false, ite_false]
        split_ifs <;>
          exact ⟨_, _, rfl, fun hne => hne.elim, fun _ => by simp⟩
      · simp only [hcmp, ite_false, hnl, ne_eq, not_true_eq_false]
        split_ifs <;>
          exact ⟨_, _, rfl, fun hne => hne.elim, fun _ => by simp⟩
    · by_cases hcmp : pn.confidence < n.confidence
      · simp only [hcmp, ite_true, hnl, ne_eq, not_false_eq_true]
        split_ifs <;>
          exact ⟨_, _, rfl, fun _ => by simp, fun heq => heq.elim⟩
      · simp only [hcmp, ite_false, hnl, ne_eq, not_false_eq_true]
        split_ifs <;>
          exact ⟨_, _, rfl, fun _ => by simp, fun heq => heq.elim⟩

/-- Witness for c4_walk_update_amended at the counterexample tree. -/
theorem c4_walk_update_amended_witness :
    ((mapLookup ([(10, (11, ⟨1, 0, 2, 3, 0⟩))] : HashTreeNode)
        (⟨1, 0, 2, 3, 0⟩ : TreeNode).preferred = none →
      ∃ r, walkBody (ConsensusConfig.new 1 2 2 10) 99
          [(10, (11, ⟨1, 0, 2, 3, 0⟩))] 10 =
        some (11, mapInsert [(10, (11, ⟨1, 0, 2, 3, 0⟩))] 11 (11, ⟨1, 0, 2, 3, 0⟩), r)) ∧
     (∀ q pn, mapLookup ([(10, (11, ⟨1, 0, 2, 3, 0⟩))] : HashTreeNode)
        (⟨1, 0, 2, 3, 0⟩ : TreeNode).preferred = some (q, pn) →
      ∃ n2 r, walkBody (ConsensusConfig.new 1 2 2 10) 99
          [(10, (11, ⟨1, 0, 2, 3, 0⟩))] 10 =
        some (11, mapInsert [(10, (11, ⟨1, 0, 2, 3, 0⟩))] 11 (11, n2), r) ∧
        ((⟨1, 0, 2, 3, 0⟩ : TreeNode).node ≠ (⟨1, 0, 2, 3, 0⟩ : TreeNode).last →
          n2.last = (⟨1, 0, 2, 3, 0⟩ : TreeNode).node ∧ n2.count = 0) ∧
        ((⟨1, 0, 2, 3, 0⟩ : TreeNode).node = (⟨1, 0, 2, 3, 0⟩ : TreeNode).last →
          n2.last = (⟨1, 0, 2, 3, 0⟩ : TreeNode).last ∧
          n2.count = ((⟨1, 0, 2, 3, 0⟩ : TreeNode).count + 1) % U64))) :=
  c4_walk_update_amended (ConsensusConfig.new 1 2 2 10) 99
    [(10, (11, ⟨1, 0, 2, 3, 0⟩))] 10 11 ⟨1, 0, 2, 3, 0⟩ (by decide)

/-- C7 counterexample: origin.balance = 1 ≥ amount = 1 satisfies the
claim's precondition, yet a destination holding u128::MAX wraps to
balance 0 instead of increasing by the amount. -/
theorem c7_apply_counterexample :
    (Transaction.apply
        ⟨some 1, 0, 0, 0, 1, TransactionStatus.Pending, TransactionType.Transfer,
         [], ⟨[], 0⟩, 0, [], none, []⟩
        ⟨0, 1, ⟨[], 0⟩, 0, 0⟩ ⟨1, U128 - 1, ⟨[], 0⟩, 0, 0⟩).map
      (fun p => p.2.balance) = some 0 ∧
    (U128 - 1) + 1 ≠ 0 := by
  constructor
  · norm_num [Transaction.apply, Account.update_last_tx, Account.update_hvc,
      Account.increase_balance, U128]
  · norm_num [U128]

/-- C7 amended: with the id set, the precondition balance ≥ amount and the
u128/u64 no-overflow side conditions the wrap-around forces (destination
balance + amount below 2^128, both hierarchical orders below 2^64 - 1),
apply decreases origin.balance by exactly the amount, increases
destination.balance by exactly the amount, sets both last_tx_id to the id
and bumps both hierarchical orders by 1, changing nothing else. -/
theorem c7_apply_amended (t : Transaction) (o d : Account) (i : Nat)
    (hid : t.id = some i)
    (hge : t.amount ≤ o.balance) (hob : o.balance < U128)
    (hdb : d.balance + t.amount < U128)
    (hoo : o.hvc.hierarchical_order + 1 < U64)
    (hdo : d.hvc.hierarchical_order + 1 < U64) :
    t.apply o d = some
      ({ o with balance := o.balance - t.amount
                last_tx_id := i
                hvc := { o.hvc with hierarchical_order := o.hvc.hierarchical_order + 1 } },
       { d with balance := d.balance + t.amount
                last_tx_id := i
                hvc := { d.hvc with hierarchical_order := d.hvc.hierarchical_order + 1 } }) := by
  have h128 : U128 = 340282366920938463463374607431768211456 := by norm_num [U128]
  have h64 : U64 = 18446744073709551616 := by norm_num [U64]
  have e1 : (o.balance + (U128 - t.amount % U128)) % U128 = o.balance - t.amount := by
    rw [h128] at hob ⊢
    omega
  have e2 : (o.hvc.hierarchical_order + 1) % U64 = o.hvc.hierarchical_order + 1 :=
    Nat.mod_eq_of_lt hoo
  have e3 : (d.balance + t.amount) % U128 = d.balance + t.amount :=
    Nat.mod_eq_of_lt hdb
  have e4 : (d.hvc.hierarchical_order + 1) % U64 = d.hvc.hierarchical_order + 1 :=
    Nat.mod_eq_of_lt hdo
  simp only [Transaction.apply, hid, Account.update_last_tx, Account.update_hvc,
    Account.decrease_balance, Account.increase_balance, e1, e2, e3, e4]

/-- Witness for c7_apply_amended on a small concrete transfer. -/
theorem c7_apply_amended_witness :
    Transaction.apply
      ⟨some 4, 0, 0, 0, 3, TransactionStatus.Pending, TransactionType.Transfer,
       [], ⟨[], 0⟩, 0, [], none, []⟩
      ⟨0, 10, ⟨[], 0⟩, 0, 0⟩ ⟨1, 5, ⟨[], 0⟩, 0, 0⟩ = some
      ({ (⟨0, 10, ⟨[], 0⟩, 0, 0⟩ : Account) with
          balance := 10 - 3, last_tx_id := 4,
          hvc := { (⟨[], 0⟩ : Hvc) with hierarchical_order := 0 + 1 } },
       { (⟨1, 5, ⟨[], 0⟩, 0, 0⟩ : Account) with
          balance := 5 + 3, last_tx_id := 4,
          hvc := { (⟨[], 0⟩ : Hvc) with hierarchical_order := 0 + 1 } }) :=
  c7_apply_amended
    ⟨some 4, 0, 0, 0, 3, TransactionStatus.Pending, TransactionType.Transfer,
     [], ⟨[], 0⟩, 0, [], none, []⟩
    ⟨0, 10, ⟨[], 0⟩, 0, 0⟩ ⟨1, 5, ⟨[], 0⟩, 0, 0⟩ 4 rfl
    (by norm_num) (by norm_num [U128]) (by norm_num [U128])
    (by norm_num [U64]) (by norm_num [U64])

theorem handleEntry_forward (our : Nat) (rt : Nat → Option (Nat × Nat))
    (e : AgentEntry) (nh : Nat) (e2 : AgentEntry)
    (h : handleEntry our rt e = some (HandleAction.forward nh e2)) :
    1 ≤ e.step ∧ e2.step = e.step - 1 := by
  unfold handleEntry at h
  split_ifs at h with h1 h2
  · simp at h
  · cases hr : rt e.target with
    | none => rw [hr] at h; simp at h
    | some pr =>
      obtain ⟨a, b⟩ := pr
      rw [hr] at h
      simp only [Option.some.injEq, HandleAction.forward.injEq] at h
      refine ⟨h2, ?_⟩
      rw [← h.2]
  · simp at h

theorem forwardChain_step (hops : List (Nat × (Nat → Option (Nat × Nat)))) :
    ∀ e e1, forwardChain hops e = some e1 →
      hops.length ≤ e.step ∧ e1.step = e.step - hops.length := by
  induction hops with
  | nil =>
    intro e e1 h
    simp only [forwardChain, Option.some.injEq] at h
    subst h
    simp
  | cons hd tl ih =>
    intro e e1 h
    obtain ⟨our, rt⟩ := hd
    unfold forwardChain at h
    cases ha : handleEntry our rt e with
    | none => rw [ha] at h; simp at h
    | some act =>
      rw [ha] at h
      cases act with
      | deliver m => simp at h
      | drop => simp at h
      | forward nh e2 =>
        simp only at h
        obtain ⟨hs1, hs2⟩ := handleEntry_forward our rt e nh e2 ha
        obtain ⟨hl, he⟩ := ih e2 e1 h
        constructor
        · simp only [List.length_cons]
          omega
        · simp only [List.length_cons]
          omega

/-- C8: payload entries enter the outbox with TTL = 5 (send_message, and
push_to_outbox alike, enqueue (target, message, TTL)); handle_agent_message
forwards an entry addressed to another node only when its step is at least
1, re-enqueuing it with step - 1, and drops it otherwise — hence any chain
of successive forwards starting from TTL = 5 has length at most 5, and
after 5 relays the entry is never forwarded again. -/
theorem c8_ttl_bound :
    TTL = 5 ∧
    (∀ (outbox : List (Nat × List AgentEntry)) (rt : Nat → Option (Nat × Nat))
       (dst msg nh hc : Nat) (ob1 : List (Nat × List AgentEntry)),
      rt dst = some (nh, hc) → send_message outbox rt dst msg = some ob1 →
      mapLookup ob1 nh = some ((mapLookup outbox nh).getD [] ++ [⟨dst, msg, 5⟩])) ∧
    (∀ (our : Nat) (rt : Nat → Option (Nat × Nat)) (e : AgentEntry)
       (nh : Nat) (e2 : AgentEntry),
      handleEntry our rt e = some (HandleAction.forward nh e2) →
      1 ≤ e.step ∧ e2.step = e.step - 1) ∧
    (∀ (e : AgentEntry), e.step = 5 →
      ∀ (hops : List (Nat × (Nat → Option (Nat × Nat)))) (e1 : AgentEntry),
        forwardChain hops e = some e1 → hops.length ≤ 5) := by
  refine ⟨rfl, ?_, fun our rt e nh e2 h => handleEntry_forward our rt e nh e2 h, ?_⟩
  · intro outbox rt dst msg nh hc ob1 hrt hsend
    unfold send_message at hsend
    rw [hrt] at hsend
    simp only [Option.some.injEq] at hsend
    subst hsend
    exact mapLookup_mapInsert_self outbox nh _
  · intro e he hops e1 hchain
    have := (forwardChain_step hops e e1 hchain).1
    omega

/-- Witness for c8_ttl_bound: a fresh entry with step TTL = 5 forwarded
along five hops. -/
theorem c8_ttl_bound_witness :
    (List.replicate 5 (((0 : Nat), fun _ => some ((2 : Nat), (1 : Nat))) :
      Nat × (Nat → Option (Nat × Nat)))).length ≤ 5 :=
  c8_ttl_bound.2.2.2 ⟨1, 9, 5⟩ rfl
    (List.replicate 5 (((0 : Nat), fun _ => some ((2 : Nat), (1 : Nat))) :
      Nat × (Nat → Option (Nat × Nat)))) ⟨1, 9, 0⟩
    (by decide)

/-- C9 counterexample: connect_to inserts unconditionally, so six
connect_to calls with distinct sockets leave the connection map with 6
entries, above MAX_CONNECTION_LEN = 5 — the claimed bound fails for
sequences containing connect_to. -/
theorem c9_connection_counterexample :
    (connect_to (connect_to (connect_to (connect_to (connect_to (connect_to
        ⟨[], [], ⟨[], 0⟩⟩ 11 1) 12 2) 13 3) 14 4) 15 5) 16 6).entries.length = 6 ∧
    6 > MAX_CONNECTION_LEN := by decide

/-- C9 amended: every connection operation except connect_to preserves the
bound of MAX_CONNECTION_LEN = 5 map entries (bootstrap stops at a full
map, handle_successful_connection refuses an unknown socket at a full map,
identification rewrites in place, failure removes), and a successful
connection from an unknown socket while the map holds 5 entries sends the
peer a Contacts message listing the current peers and inserts nothing —
but connect_to inserts unconditionally and can push the map past 5. -/
theorem c9_connection_bound_amended :
    (∀ (c : Connection) (socks : List Nat),
      c.entries.length ≤ MAX_CONNECTION_LEN →
      (bootstrap c socks).entries.length ≤ MAX_CONNECTION_LEN) ∧
    (∀ (c : Connection) (sock our : Nat),
      c.entries.length ≤ MAX_CONNECTION_LEN →
      (handle_successful_connection c sock our).1.entries.length ≤ MAX_CONNECTION_LEN) ∧
    (∀ (c : Connection) (sock ph : Nat),
      (handle_peer_identification c sock ph).1.entries.length = c.entries.length) ∧
    (∀ (c : Connection) (sock : Nat),
      (handle_connection_failure c sock).entries.length ≤ c.entries.length) ∧
    (∀ (c : Connection) (sock our : Nat),
      c.entries.length = MAX_CONNECTION_LEN →
      mapLookup c.entries sock = none →
      (handle_successful_connection c sock our).1 = c ∧
      (handle_successful_connection c sock our).2 =
        [SentMessage.Contacts (c.entries.map Prod.fst)]) := by
  refine ⟨?_, ?_, ?_, ?_, ?_⟩
  · intro c socks
    induction socks generalizing c with
    | nil => intro hb; simpa [bootstrap] using hb
    | cons sock rest ih =>
      intro hb
      unfold bootstrap
      by_cases hfull : c.entries.length = MAX_CONNECTION_LEN
      · simp [hfull]
      · simp only [hfull, if_false]
        cases hk : mapLookup c.entries sock with
        | some v =>
          simp only [hk, Option.isSome_some, if_true]
          exact ih c hb
        | none =>
          simp only [hk, Option.isSome_none, Bool.false_eq_true, if_false]
          refine ih _ ?_
          have hlen : (bootstrap_with c sock).entries.length = c.entries.length + 1 := by
            simp [bootstrap_with, length_mapInsert, hk]
          rw [hlen]
          simp only [MAX_CONNECTION_LEN] at hb hfull ⊢
          omega
  · intro c sock our hb
    unfold handle_successful_connection
    cases hk : mapLookup c.entries sock with
    | some pr =>
      obtain ⟨opk, stt⟩ := pr
      cases opk with
      | some key => simpa [length_mapInsert, hk] using hb
      | none => simpa [hk] using hb
    | none =>
      by_cases hfull : c.entries.length = MAX_CONNECTION_LEN
      · simp [hk, hfull]
      · simp only [hk, hfull, if_false, length_mapInsert, Option.isSome_none,
          Bool.false_eq_true]
        simp only [MAX_CONNECTION_LEN] at hb hfull ⊢
        omega
  · intro c sock ph
    unfold handle_peer_identification
    cases hk : mapLookup c.entries sock with
    | some pr =>
      obtain ⟨opk, stt⟩ := pr
      cases opk with
      | some key => simp [hk]
      | none => simp [hk, length_mapInsert]
    | none => simp [hk]
  · intro c sock
    simpa [handle_connection_failure] using length_mapRemove_le c.entries sock
  · intro c sock our hfull hk
    unfold handle_successful_connection
    rw [hk]
    simp [hfull]

/-- Witness for c9_connection_bound_amended at a full five-entry map and
the unknown socket 16. -/
theorem c9_connection_bound_amended_witness :
    (handle_successful_connection
        ⟨[(11, (none, ConnectionState.Connecting)), (12, (none, ConnectionState.Connecting)),
          (13, (none, ConnectionState.Connecting)), (14, (none, ConnectionState.Connecting)),
          (15, (none, ConnectionState.Connecting))], [], ⟨[], 0⟩⟩ 16 42).1 =
      ⟨[(11, (none, ConnectionState.Connecting)), (12, (none, ConnectionState.Connecting)),
        (13, (none, ConnectionState.Connecting)), (14, (none, ConnectionState.Connecting)),
        (15, (none, ConnectionState.Connecting))], [], ⟨[], 0⟩⟩ ∧
    (handle_successful_connection
        ⟨[(11, (none, ConnectionState.Connecting)), (12, (none, ConnectionState.Connecting)),
          (13, (none, ConnectionState.Connecting)), (14, (none, ConnectionState.Connecting)),
          (15, (none, ConnectionState.Connecting))], [], ⟨[], 0⟩⟩ 16 42).2 =
      [SentMessage.Contacts
        ((⟨[(11, (none, ConnectionState.Connecting)), (12, (none, ConnectionState.Connecting)),
            (13, (none, ConnectionState.Connecting)), (14, (none, ConnectionState.Connecting)),
            (15, (none, ConnectionState.Connecting))], [], ⟨[], 0⟩⟩ : Connection).entries.map
          Prod.fst)] :=
  c9_connection_bound_amended.2.2.2.2
    ⟨[(11, (none, ConnectionState.Connecting)), (12, (none, ConnectionState.Connecting)),
      (13, (none, ConnectionState.Connecting)), (14, (none, ConnectionState.Connecting)),
      (15, (none, ConnectionState.Connecting))], [], ⟨[], 0⟩⟩ 16 42 (by decide) (by decide)

/-- C10: every consensus entry point that reads the transaction id — the
query insert, on_query, both fire_consensus variants and
Transaction::apply — unwraps the Option id, so on a transaction whose id
is none each of them panics (none in the model) instead of returning an
error or a status; for on_query this uses the reachability invariant that
every choice-map key has a conflict-set entry, which all engine operations
preserve. -/
theorem c10_unwrap_panics (cfg : ConsensusConfig) (st : EngineState)
    (state : AccountStateChoice) (p fuel : Nat) (tree : HashTreeNode)
    (oracle : Nat → List (Nat × Nat)) (o d : Account)
    (hid : state.tx.id = none)
    (hinv : ∀ s c, mapLookup st.choice s = some c →
      (mapLookup st.conflict_set s).isSome = true) :
    dagQuery st state = none ∧
    dagOnQuery st state = none ∧
    dagFireConsensus cfg st state p tree fuel = none ∧
    quantumFireConsensus cfg st state oracle fuel = none ∧
    state.tx.apply o d = none := by
  refine ⟨?_, ?_, ?_, ?_, ?_⟩
  · simp [dagQuery, Transaction.get_tx_id, hid]
  · unfold dagOnQuery
    cases hcs : mapLookup st.conflict_set state.account_state_id with
    | some s => simp [Transaction.get_tx_id, hid]
    | none =>
      cases hch : mapLookup st.choice state.account_state_id with
      | some c =>
        have := hinv state.account_state_id c hch
        rw [hcs] at this
        simp at this
      | none => simp [Transaction.get_tx_id, hid]
  · simp [dagFireConsensus, Transaction.get_tx_id, hid]
  · simp [quantumFireConsensus, Transaction.get_tx_id, hid]
  · simp [Transaction.apply, hid]

/-- Witness for c10_unwrap_panics on an empty engine and an id-less
transaction. -/
theorem c10_unwrap_panics_witness :
    dagQuery ⟨[], []⟩ ⟨0, ⟨none, 0, 0, 0, 1, TransactionStatus.Pending,
      TransactionType.Transfer, [], ⟨[], 0⟩, 0, [], none, []⟩⟩ = none ∧
    dagOnQuery ⟨[], []⟩ ⟨0, ⟨none, 0, 0, 0, 1, TransactionStatus.Pending,
      TransactionType.Transfer, [], ⟨[], 0⟩, 0, [], none, []⟩⟩ = none ∧
    dagFireConsensus (ConsensusConfig.new 1 2 2 10) ⟨[], []⟩
      ⟨0, ⟨none, 0, 0, 0, 1, TransactionStatus.Pending,
        TransactionType.Transfer, [], ⟨[], 0⟩, 0, [], none, []⟩⟩ 0 [] 0 = none ∧
    quantumFireConsensus (ConsensusConfig.new 1 2 2 10) ⟨[], []⟩
      ⟨0, ⟨none, 0, 0, 0, 1, TransactionStatus.Pending,
        TransactionType.Transfer, [], ⟨[], 0⟩, 0, [], none, []⟩⟩ (fun _ => []) 0 = none ∧
    Transaction.apply ⟨none, 0, 0, 0, 1, TransactionStatus.Pending,
      TransactionType.Transfer, [], ⟨[], 0⟩, 0, [], none, []⟩
      ⟨0, 1, ⟨[], 0⟩, 0, 0⟩ ⟨1, 5, ⟨[], 0⟩, 0, 0⟩ = none :=
  c10_unwrap_panics (ConsensusConfig.new 1 2 2 10) ⟨[], []⟩
    ⟨0, ⟨none, 0, 0, 0, 1, TransactionStatus.Pending,
      TransactionType.Transfer, [], ⟨[], 0⟩, 0, [], none, []⟩⟩ 0 0 []
    (fun _ => []) ⟨0, 1, ⟨[], 0⟩, 0, 0⟩ ⟨1, 5, ⟨[], 0⟩, 0, 0⟩ rfl
    (fun s c h => by simp [mapLookup] at h)

end DagChain
